import Mathlib

/-!
Verification development for the CalorieTracker ingredient resolution engine
(`src/search.py`, class `IngredientNutritionSearch`).

Numeric values (Python floats) are modelled as exact rationals `ℚ`.
Python exceptions are modelled with `Except PyError`.
The lexical matcher embeds the relevant part of Python's `difflib`
(`SequenceMatcher.ratio` / `get_close_matches`) with no junk heuristic:
`SequenceMatcher` only activates its autojunk heuristic when the second
sequence (here: the query) has at least 200 characters, so the model below is
the exact algorithm for queries shorter than 200 characters.
The embedding model (`SentenceTransformer`) and the cosine-similarity kernel
are external collaborators of the engine; they are kept abstract as function
fields of the state structure, exactly as they are injected in `__init__`.
-/

/-- Python `str.lower()` (on the ASCII range, the one exercised by the
engine's data): lowercase every character. -/
def strLower (s : String) : String := ⟨s.data.map Char.toLower⟩

/-- Python `round(x, 0)`: round to the nearest integer, ties to even
(banker's rounding), returning a whole-valued number. -/
def pyRound (x : ℚ) : ℚ :=
  let f : ℤ := ⌊x⌋
  let r : ℚ := x - (f : ℚ)
  if r < 1/2 then (f : ℚ)
  else if 1/2 < r then ((f + 1 : ℤ) : ℚ)
  else if f % 2 = 0 then (f : ℚ) else ((f + 1 : ℤ) : ℚ)

/-- One row update of the `j2len` dynamic program inside difflib's
`SequenceMatcher.find_longest_match`: `newj2len[j] = j2len.get(j-1, 0) + 1`
for every window position `j` where `b[j]` equals the current `a` element,
and `0` elsewhere. -/
def flmRow (b : List Char) (ac : Char) (blo bhi : Nat) (old : Nat → Nat) : Nat → Nat :=
  fun j =>
    if blo ≤ j ∧ j < bhi ∧ b.getD j default = ac then
      (if j = 0 then 0 else old (j - 1)) + 1
    else 0

/-- The `if k > bestsize: besti, bestj, bestsize = i-k+1, j-k+1, k` scan of a
finished DP row, over `steps` consecutive window positions starting at `j`. -/
def bestScanGo (row : Nat → Nat) (i : Nat) : Nat → Nat → (Nat × Nat × Nat) → Nat × Nat × Nat
  | _, 0, best => best
  | j, steps + 1, best =>
      bestScanGo row i (j + 1) steps
        (if best.2.2 < row j then (i + 1 - row j, j + 1 - row j, row j) else best)

/-- The outer `for i in range(alo, ahi)` loop of `find_longest_match`:
build the next DP row, scan it for a new best block, recurse. -/
def flmGo (a b : List Char) (blo bhi : Nat) : Nat → Nat → (Nat → Nat) → (Nat × Nat × Nat) → Nat × Nat × Nat
  | _, 0, _, best => best
  | i, steps + 1, row, best =>
      let row' := flmRow b (a.getD i default) blo bhi row
      flmGo a b blo bhi (i + 1) steps row' (bestScanGo row' i blo (bhi - blo) best)

/-- difflib's first `while` loop after the DP: extend the best block to the
left while the preceding elements match (the junk set is empty here, so the
`isbjunk` tests are omitted as always false). -/
def extendL (a b : List Char) (alo blo : Nat) : Nat → (Nat × Nat × Nat) → Nat × Nat × Nat
  | 0, best => best
  | fuel + 1, best =>
      if alo < best.1 ∧ blo < best.2.1 ∧
          a.getD (best.1 - 1) default = b.getD (best.2.1 - 1) default then
        extendL a b alo blo fuel (best.1 - 1, best.2.1 - 1, best.2.2 + 1)
      else best

/-- difflib's second `while` loop after the DP: extend the best block to the
right while the following elements match. -/
def extendR (a b : List Char) (ahi bhi : Nat) : Nat → (Nat × Nat × Nat) → Nat × Nat × Nat
  | 0, best => best
  | fuel + 1, best =>
      if best.1 + best.2.2 < ahi ∧ best.2.1 + best.2.2 < bhi ∧
          a.getD (best.1 + best.2.2) default = b.getD (best.2.1 + best.2.2) default then
        extendR a b ahi bhi fuel (best.1, best.2.1, best.2.2 + 1)
      else best

/-- `SequenceMatcher.find_longest_match(alo, ahi, blo, bhi)` (empty junk set):
returns `(besti, bestj, bestsize)`. -/
def find_longest_match (a b : List Char) (alo ahi blo bhi : Nat) : Nat × Nat × Nat :=
  let best := flmGo a b blo bhi alo (ahi - alo) (fun _ => 0) (alo, blo, 0)
  let best := extendL a b alo blo (ahi + bhi) best
  extendR a b ahi bhi (ahi + bhi) best

/-- Total size of the matching blocks produced by
`SequenceMatcher.get_matching_blocks`: recursively take the longest match and
recurse on the two remaining corners (fuel-based recursion; block merging in
difflib does not change the total). -/
def matchTotalAux (a b : List Char) : Nat → Nat → Nat → Nat → Nat → Nat
  | 0, _, _, _, _ => 0
  | fuel + 1, alo, ahi, blo, bhi =>
    let ijk := find_longest_match a b alo ahi blo bhi
    if ijk.2.2 = 0 then 0
    else
      ijk.2.2 +
        (if alo < ijk.1 ∧ blo < ijk.2.1 then
          matchTotalAux a b fuel alo ijk.1 blo ijk.2.1 else 0) +
        (if ijk.1 + ijk.2.2 < ahi ∧ ijk.2.1 + ijk.2.2 < bhi then
          matchTotalAux a b fuel (ijk.1 + ijk.2.2) ahi (ijk.2.1 + ijk.2.2) bhi else 0)

/-- `SequenceMatcher.ratio()` for sequences `a` (candidate) and `b` (query):
`2.0 * M / T` where `M` is the total size of the matching blocks and
`T = len(a) + len(b)`; `1.0` when both are empty. -/
def ratioOf (a b : List Char) : ℚ :=
  if a.length + b.length = 0 then 1
  else 2 * (matchTotalAux a b (a.length + b.length + 1) 0 a.length 0 b.length : ℚ) /
    ((a.length + b.length : Nat) : ℚ)

/-- Python tuple comparison `(score, string) < (score, string)`:
lexicographic, strings compared by code points. -/
def tupleLtb (p q : ℚ × String) : Bool :=
  decide (p.1 < q.1 ∨ (p.1 = q.1 ∧ p.2 < q.2))

/-- `heapq.nlargest(1, pairs)` as used by `difflib.get_close_matches` for
`n=1`: the maximum under Python tuple comparison, `none` for an empty list. -/
def nlargest1 : List (ℚ × String) → Option (ℚ × String)
  | [] => none
  | p :: rest => some (rest.foldl (fun best q => if tupleLtb best q then q else best) p)

/-- `difflib.get_close_matches(word, possibilities, n=1, cutoff)` followed by
the `matches[0] if matches else None` selection in `_fuzzy_search`:
keep the candidates whose ratio against `word` reaches the cutoff (the
`real_quick_ratio`/`quick_ratio` tests are upper bounds of `ratio` and filter
nothing beyond it), then take the largest `(score, candidate)` pair. -/
def get_close_matches1 (word : String) (possibilities : List String) (cutoff : ℚ) : Option String :=
  let scored := possibilities.filterMap (fun x =>
    if cutoff ≤ ratioOf x.data word.data then some (ratioOf x.data word.data, x) else none)
  (nlargest1 scored).map Prod.snd

/-- A per-100-gram nutrition record (`_load_data` row values). -/
structure NutritionRecord where
  calories : ℚ
  fats : ℚ
  proteins : ℚ
  carbohydrates : ℚ
deriving DecidableEq

/-- The Python exceptions reachable through the engine. -/
inductive PyError where
  | valueError (msg : String)
  | attributeError (msg : String)
  | indexError (msg : String)
  | runtimeError (msg : String)
deriving DecidableEq

instance exceptDecEq {ε α : Type} [DecidableEq ε] [DecidableEq α] : DecidableEq (Except ε α) :=
  fun x y =>
    match x, y with
    | .ok a, .ok b =>
      if h : a = b then .isTrue (by rw [h]) else .isFalse (by simp [h])
    | .error e, .error f =>
      if h : e = f then .isTrue (by rw [h]) else .isFalse (by simp [h])
    | .ok _, .error _ => .isFalse (by simp)
    | .error _, .ok _ => .isFalse (by simp)

/-- Elementwise encoding of a list of names, as
`self.encoder.encode(self._ingredients)` in `__init__`; an exception while
encoding any element fails the whole batch. -/
def encodeAll (f : String → Except PyError (List ℚ)) : List String → Except PyError (List (List ℚ))
  | [] => .ok []
  | s :: rest =>
    match f s, encodeAll f rest with
    | .ok v, .ok vs => .ok (v :: vs)
    | .error e, _ => .error e
    | .ok _, .error e => .error e

/-- State of an `IngredientNutritionSearch` instance after `__init__`
succeeded: the nutrition table (an insertion-ordered mapping with unique
keys, as a Python dict), the injected encoder and cosine-similarity kernel
(external collaborators, abstract), and the precomputed embeddings of the
ingredient names. -/
structure IngredientNutritionSearch where
  data : List (String × NutritionRecord)
  keys_nodup : (data.map Prod.fst).Nodup
  encode : String → Except PyError (List ℚ)
  cosSim : List ℚ → List ℚ → ℚ
  embeddings : List (List ℚ)
  embeddings_built : encodeAll encode (data.map Prod.fst) = Except.ok embeddings

/-- `self._ingredients = list(self.data.keys())`. -/
def ingredients (self : IngredientNutritionSearch) : List String :=
  self.data.map Prod.fst

/-- `IngredientNutritionSearch._fuzzy_search` (default threshold 0.6 at the
Python call sites): lowercase the query, fuzzy-match against the ingredient
names. -/
def fuzzy_search (self : IngredientNutritionSearch) (ingredient_name : String) (threshold : ℚ) :
    Option String :=
  get_close_matches1 (strLower ingredient_name) (ingredients self) threshold

/-- Index of the first maximal element, as `torch.argmax` on the cosine-score
row (first occurrence on ties); `none` models the error torch raises on an
empty tensor. -/
def argmaxGo : List ℚ → Nat → Nat → ℚ → Nat
  | [], _, bi, _ => bi
  | x :: xs, i, bi, bv => if bv < x then argmaxGo xs (i + 1) i x else argmaxGo xs (i + 1) bi bv

def argmaxIdx : List ℚ → Option Nat
  | [] => none
  | x :: xs => some (argmaxGo xs 1 0 x)

def nilStr : String := ""

/-- `IngredientNutritionSearch._semantic_search`: encode the lowercased query
(the encoder may raise), take cosine scores against the precomputed
embeddings, and accept the argmax ingredient when its score reaches the
threshold. -/
def semantic_search (self : IngredientNutritionSearch) (ingredient_name : String) (threshold : ℚ) :
    Except PyError (Option String) :=
  match self.encode (strLower ingredient_name) with
  | .error e => .error e
  | .ok ingredient_embedding =>
    let cosine_scores := self.embeddings.map (fun v => self.cosSim ingredient_embedding v)
    match argmaxIdx cosine_scores with
    | none => .error (.indexError ("argmax on an empty tensor"))
    | some max_index =>
      if threshold ≤ cosine_scores.getD max_index 0 then
        .ok (some ((ingredients self).getD max_index nilStr))
      else .ok none

/-- One output entry of `search`: either `{raw_name: {}}` (`none`) or
`{raw_name: {match, weight, calories, fats, proteins, carbohydrates}}`. -/
structure ResultData where
  matched : String
  weight : ℚ
  calories : ℚ
  fats : ℚ
  proteins : ℚ
  carbohydrates : ℚ
deriving DecidableEq

/-- The scaled, rounded entry built in the `if match:` branch of `search`. -/
def scaledEntry (mname : String) (w : ℚ) (r : NutritionRecord) : ResultData :=
  ⟨mname, w,
    pyRound (r.calories * (w / 100)),
    pyRound (r.fats * (w / 100)),
    pyRound (r.proteins * (w / 100)),
    pyRound (r.carbohydrates * (w / 100))⟩

/-- The `if search_type == "fuzzy": ... elif search_type == "semantic": ...`
dispatch inside the loop of `search` (when neither test fires the Python
`match` variable keeps its initial `None`). -/
def dispatchMatch (self : IngredientNutritionSearch) (search_type ingredient_name : String)
    (threshold : ℚ) : Except PyError (Option String) :=
  if search_type = "fuzzy" then .ok (fuzzy_search self ingredient_name threshold)
  else if search_type = "semantic" then semantic_search self ingredient_name threshold
  else .ok none

/-- The `if match:` branch of the loop body of `search`: a falsy match
(`None` or the empty string) emits the empty entry; otherwise the record is
fetched with `self.data.get(match)` — `None` there would crash the
`ingredient_data.items()` call with an `AttributeError` — and scaled. -/
def entryResult (self : IngredientNutritionSearch) (ingredient_weight : ℚ)
    (om : Option String) : Except PyError (Option ResultData) :=
  match om with
  | some mname =>
    if mname = "" then .ok none
    else
      match List.lookup mname self.data with
      | none => .error (.attributeError ("NoneType object has no attribute items"))
      | some r => .ok (some (scaledEntry mname ingredient_weight r))
  | none => .ok none

/-- The `for ingredient_name, ingredient_weight in img_ingredients.items()`
loop of `IngredientNutritionSearch.search`.  Entries with non-positive
weight are skipped; the matcher runs at threshold 0.6 (the defaults of
`_fuzzy_search` / `_semantic_search`, their only call sites); an exception
anywhere aborts the whole call, discarding every entry built so far. -/
def searchLoop (self : IngredientNutritionSearch) (search_type : String) :
    List (String × ℚ) → Except PyError (List (String × Option ResultData))
  | [] => .ok []
  | (ingredient_name, ingredient_weight) :: rest =>
    if 0 < ingredient_weight then
      match dispatchMatch self search_type ingredient_name (0.6 : ℚ) with
      | .error e => .error e
      | .ok om =>
        match entryResult self ingredient_weight om with
        | .error e => .error e
        | .ok entry =>
          (searchLoop self search_type rest).map
            (fun res => (ingredient_name, entry) :: res)
    else searchLoop self search_type rest

/-- `IngredientNutritionSearch.search(img_ingredients, search_type)`:
reject unknown search types with a `ValueError` before touching any entry,
then run the resolution loop. -/
def search (self : IngredientNutritionSearch) (img_ingredients : List (String × ℚ))
    (search_type : String) : Except PyError (List (String × Option ResultData)) :=
  if search_type ≠ "fuzzy" ∧ search_type ≠ "semantic" then
    .error (.valueError ("search_type must be either fuzzy or semantic"))
  else searchLoop self search_type img_ingredients

/-- Resolution of a single positive-weight request entry at an explicit
matcher threshold; `search` is shown to be exactly this at threshold 0.6. -/
def resolveOne (self : IngredientNutritionSearch) (search_type : String) (threshold : ℚ)
    (p : String × ℚ) : Except PyError (String × Option ResultData) :=
  match dispatchMatch self search_type p.1 threshold with
  | .error e => .error e
  | .ok om =>
    match entryResult self p.2 om with
    | .error e => .error e
    | .ok entry => .ok (p.1, entry)

/-- Sequential resolution of a batch of entries, aborting on the first
error. -/
def resolveBatch (self : IngredientNutritionSearch) (search_type : String) (threshold : ℚ) :
    List (String × ℚ) → Except PyError (List (String × Option ResultData))
  | [] => .ok []
  | p :: rest =>
    match resolveOne self search_type threshold p with
    | .error e => .error e
    | .ok entry =>
      match resolveBatch self search_type threshold rest with
      | .error e => .error e
      | .ok res => .ok (entry :: res)

/-- The apple/banana table of the specification's concrete scenario. -/
def appleBananaData : List (String × NutritionRecord) :=
  [("apple", ⟨52, 0.2, 0.3, 13.8⟩), ("banana", ⟨89, 0.3, 1.1, 22.8⟩)]

/-- A concrete engine instance over the apple/banana table, with a
non-degenerate encoder (distinct embeddings per name) and an abstract
similarity kernel scoring 1 exactly on equal vectors. -/
def cMain : IngredientNutritionSearch where
  data := appleBananaData
  keys_nodup := by decide
  encode := fun s =>
    if s = "apple" then .ok [1, 0] else if s = "banana" then .ok [0, 1] else .ok [5, 5]
  cosSim := fun v w => if v = w then 1 else 0
  embeddings := [[1, 0], [0, 1]]
  embeddings_built := by rfl

/-- An engine whose encoder raises on the query `"egg"` (and only there):
exercises per-query matcher failure under the semantic strategy. -/
def cErr : IngredientNutritionSearch where
  data := [("apple", ⟨52, 0.2, 0.3, 13.8⟩)]
  keys_nodup := by decide
  encode := fun s => if s = "egg" then .error (.runtimeError ("boom")) else .ok [1]
  cosSim := fun v w => if v = w then 1 else 0
  embeddings := [[1]]
  embeddings_built := by rfl

/-- A table whose only canonical name is the empty string: the matcher
returns it, but Python's `if match:` treats it as falsy. -/
def cEmptyA : IngredientNutritionSearch where
  data := [("", ⟨52, 0.2, 0.3, 13.8⟩)]
  keys_nodup := by decide
  encode := fun _ => .ok [1]
  cosSim := fun v w => if v = w then 1 else 0
  embeddings := [[1]]
  embeddings_built := by rfl

/-- A table containing the empty string next to an ordinary name. -/
def cEmptyB : IngredientNutritionSearch where
  data := [("", ⟨10, 1, 1, 1⟩), ("apple", ⟨52, 0.2, 0.3, 13.8⟩)]
  keys_nodup := by decide
  encode := fun s => if s = "apple" then .ok [1, 0] else .ok [0, 1]
  cosSim := fun v w => if v = w then 1 else 0
  embeddings := [[0, 1], [1, 0]]
  embeddings_built := by rfl

/-- Invariant of the best block tracked by `find_longest_match`: either still
the initial `(alo, blo, 0)`, or a matching block inside the window. -/
def BlockOK (a b : List Char) (alo ahi blo bhi : Nat) (t : Nat × Nat × Nat) : Prop :=
  t = (alo, blo, 0) ∨
    (alo ≤ t.1 ∧ t.1 + t.2.2 ≤ ahi ∧ blo ≤ t.2.1 ∧ t.2.1 + t.2.2 ≤ bhi ∧
      ∀ d, d < t.2.2 → a.getD (t.1 + d) default = b.getD (t.2.1 + d) default)

/-- Invariant of the DP row of `find_longest_match` when the next row to
process has index `i`: every positive entry `row j` is the length of a run of
matches ending at source position `i - 1` and query position `j`, contained
in the window. -/
def RowOK (a b : List Char) (alo blo bhi i : Nat) (row : Nat → Nat) : Prop :=
  ∀ j, 0 < row j →
    blo ≤ j ∧ j < bhi ∧ blo + row j ≤ j + 1 ∧ alo + row j ≤ i ∧
      ∀ d, d < row j → a.getD (i - 1 - d) default = b.getD (j - d) default

/-- The DP row after processing `steps` rows starting at row index `i`. -/
def rowIter (a b : List Char) (blo bhi : Nat) : Nat → Nat → (Nat → Nat) → (Nat → Nat)
  | _, 0, row => row
  | i, steps + 1, row => rowIter a b blo bhi (i + 1) steps (flmRow b (a.getD i default) blo bhi row)

set_option maxRecDepth 10000

theorem except_map_ok {ε α β : Type} {f : α → β} {x : Except ε α} {b : β}
    (h : x.map f = Except.ok b) : ∃ a, x = Except.ok a ∧ b = f a := by
  cases x with
  | ok a => exact ⟨a, rfl, by simpa [Except.map] using h.symm⟩
  | error e => simp [Except.map] at h

theorem entryResult_ok_some {self : IngredientNutritionSearch} {w : ℚ}
    {om : Option String} {rd : ResultData}
    (h : entryResult self w om = Except.ok (some rd)) :
    ∃ mname r, om = some mname ∧ mname ≠ "" ∧
      List.lookup mname self.data = some r ∧ rd = scaledEntry mname w r := by
  cases om with
  | none => simp [entryResult] at h
  | some mname =>
    by_cases hm : mname = ""
    · simp [entryResult, hm] at h
    · cases hl : List.lookup mname self.data with
      | none => simp [entryResult, hm, hl] at h
      | some r =>
        simp only [entryResult, hm, if_neg hm, hl] at h
        exact ⟨mname, r, rfl, hm, hl, by simpa using h.symm⟩

theorem searchLoop_keys (self : IngredientNutritionSearch) (st : String) :
    ∀ items res, searchLoop self st items = Except.ok res →
      res.map Prod.fst = (items.filter (fun p => decide (0 < p.2))).map Prod.fst := by
  intro items
  induction items with
  | nil =>
    intro res h
    simp only [searchLoop] at h
    cases h
    simp
  | cons p rest ih =>
    intro res h
    obtain ⟨name, w⟩ := p
    by_cases hw : 0 < w
    · cases hd : dispatchMatch self st name (0.6 : ℚ) with
      | error e => simp [searchLoop, hw, hd] at h
      | ok om =>
        cases he : entryResult self w om with
        | error e => simp [searchLoop, hw, hd, he] at h
        | ok entry =>
          simp only [searchLoop, if_pos hw, hd, he] at h
          obtain ⟨res', hres', hcons⟩ := except_map_ok h
          subst hcons
          simp [List.filter, hw, ih res' hres']
    · simp only [searchLoop, if_neg hw] at h
      simp [List.filter, hw, ih res h]

theorem searchLoop_matched_entries (self : IngredientNutritionSearch) (st : String) :
    ∀ items res, searchLoop self st items = Except.ok res →
      ∀ n rd, (n, some rd) ∈ res →
        ∃ r, List.lookup rd.matched self.data = some r ∧
          rd = scaledEntry rd.matched rd.weight r := by
  intro items
  induction items with
  | nil =>
    intro res h n rd hmem
    simp only [searchLoop] at h
    cases h
    simp at hmem
  | cons p rest ih =>
    intro res h n rd hmem
    obtain ⟨name, w⟩ := p
    by_cases hw : 0 < w
    · cases hd : dispatchMatch self st name (0.6 : ℚ) with
      | error e => simp [searchLoop, hw, hd] at h
      | ok om =>
        cases he : entryResult self w om with
        | error e => simp [searchLoop, hw, hd, he] at h
        | ok entry =>
          simp only [searchLoop, if_pos hw, hd, he] at h
          obtain ⟨res', hres', hcons⟩ := except_map_ok h
          subst hcons
          rcases List.mem_cons.mp hmem with hhead | htail
          · have hent : entry = some rd := by
              have := congrArg Prod.snd hhead
              simpa using this.symm
            subst hent
            obtain ⟨mname, r, _, _, hl, hrd⟩ := entryResult_ok_some he
            refine ⟨r, ?_, ?_⟩
            · rw [hrd]; simpa [scaledEntry] using hl
            · rw [hrd]; simp [scaledEntry]
          · exact ih res' hres' n rd htail
    · simp only [searchLoop, if_neg hw] at h
      exact ih res h n rd hmem

theorem search_fuzzy_loop (self : IngredientNutritionSearch) (items : List (String × ℚ)) :
    search self items ("fuzzy") = searchLoop self ("fuzzy") items := by
  simp [search]

theorem search_semantic_loop (self : IngredientNutritionSearch) (items : List (String × ℚ)) :
    search self items ("semantic") = searchLoop self ("semantic") items := by
  simp [search]

theorem pyRound_den (x : ℚ) : (pyRound x).den = 1 := by
  simp only [pyRound]
  split
  · exact Rat.den_intCast _
  · split
    · exact Rat.den_intCast _
    · split <;> exact Rat.den_intCast _

/-- C8: on the apple/banana table, the request `{"aple": 150, "banana": 120}`
under the lexical (fuzzy) strategy with threshold 0.6 resolves to exactly the
two matched, scaled, rounded entries of the specification's concrete
scenario. -/
theorem c8_concrete_scenario :
    search cMain [("aple", 150), ("banana", 120)] ("fuzzy") =
      Except.ok [("aple", some ⟨"apple", 150, 78, 0, 0, 21⟩),
                 ("banana", some ⟨"banana", 120, 107, 0, 1, 27⟩)] := by
  with_unfolding_all decide

/-- C3: calling `search` with a strategy that is neither `"fuzzy"` (the
lexical strategy) nor `"semantic"` fails with the `ValueError`
(`InvalidStrategyError`) before any request entry is processed, so no partial
result exists. -/
theorem c3_invalid_strategy_error (self : IngredientNutritionSearch)
    (img_ingredients : List (String × ℚ)) (search_type : String)
    (h1 : search_type ≠ "fuzzy") (h2 : search_type ≠ "semantic") :
    search self img_ingredients search_type =
      Except.error (.valueError ("search_type must be either fuzzy or semantic")) := by
  simp [search, h1, h2]

theorem c3_witness :
    search cMain [("apple", 100)] ("lexical") =
      Except.error (.valueError ("search_type must be either fuzzy or semantic")) :=
  c3_invalid_strategy_error cMain [("apple", 100)] ("lexical") (by decide) (by decide)

/-- C2: a successful `search` returns one entry per positive-weight request
item, keyed by the raw query name in input order, and (for a request with
distinct names, as a Python dict guarantees) no entry at all — not even a
placeholder — for the items with non-positive weight. -/
theorem c2_result_keys_filtered (self : IngredientNutritionSearch)
    (items : List (String × ℚ)) (search_type : String)
    (res : List (String × Option ResultData))
    (h : search self items search_type = Except.ok res) :
    res.map Prod.fst = (items.filter (fun p => decide (0 < p.2))).map Prod.fst ∧
      ((items.map Prod.fst).Nodup →
        ∀ n w, (n, w) ∈ items → w ≤ 0 → n ∉ res.map Prod.fst) := by
  have hloop : searchLoop self search_type items = Except.ok res := by
    by_cases hv : search_type ≠ "fuzzy" ∧ search_type ≠ "semantic"
    · rw [search, if_pos hv] at h
      exact absurd h (by simp)
    · rwa [search, if_neg hv] at h
  have hkeys := searchLoop_keys self search_type items res hloop
  refine ⟨hkeys, fun hnd n w hmem hw0 hcontra => ?_⟩
  rw [hkeys] at hcontra
  obtain ⟨p, hpfilter, hpfst⟩ := List.mem_map.mp hcontra
  have hpitems : p ∈ items := List.mem_of_mem_filter hpfilter
  have hppos : 0 < p.2 := by
    have := List.of_mem_filter hpfilter
    simpa using this
  have hpe : (n, w) = p :=
    List.inj_on_of_nodup_map hnd hmem hpitems (by simpa using hpfst.symm)
  have hw2 : w = p.2 := by rw [← hpe]
  exact absurd hppos (not_lt.mpr (hw2 ▸ hw0))

theorem c2_witness :
    ("pear" : String) ∉
      ([(("aple" : String), some (⟨"apple", 150, 78, 0, 0, 21⟩ : ResultData))].map Prod.fst) :=
  (c2_result_keys_filtered cMain [("aple", 150), ("pear", -3)] ("fuzzy")
      [(("aple" : String), some (⟨"apple", 150, 78, 0, 0, 21⟩ : ResultData))]
      (by with_unfolding_all decide)).2 (by decide) ("pear") (-3)
    (by simp) (by norm_num)

/-- C10: every matched output entry carries the four nutrition fields
obtained from the looked-up base record by scaling with `weight / 100` and
rounding with Python's `round(·, 0)` — round-half-to-even (0.5 rounds to 0,
1.5 and 2.5 both round to 2) — and each emitted value is whole-valued (its
denominator is 1), while remaining a number of the same kind as the inputs
rather than an integer type. -/
theorem c10_round_half_even_whole (self : IngredientNutritionSearch)
    (items : List (String × ℚ)) (search_type : String)
    (res : List (String × Option ResultData)) (n : String) (rd : ResultData)
    (h : search self items search_type = Except.ok res) (hmem : (n, some rd) ∈ res) :
    (∃ r, List.lookup rd.matched self.data = some r ∧
      rd.calories = pyRound (r.calories * (rd.weight / 100)) ∧
      rd.fats = pyRound (r.fats * (rd.weight / 100)) ∧
      rd.proteins = pyRound (r.proteins * (rd.weight / 100)) ∧
      rd.carbohydrates = pyRound (r.carbohydrates * (rd.weight / 100))) ∧
      rd.calories.den = 1 ∧ rd.fats.den = 1 ∧ rd.proteins.den = 1 ∧
      rd.carbohydrates.den = 1 ∧
      pyRound (1/2) = 0 ∧ pyRound (3/2) = 2 ∧ pyRound (5/2) = 2 := by
  have hloop : searchLoop self search_type items = Except.ok res := by
    by_cases hv : search_type ≠ "fuzzy" ∧ search_type ≠ "semantic"
    · rw [search, if_pos hv] at h
      exact absurd h (by simp)
    · rwa [search, if_neg hv] at h
  obtain ⟨r, hl, hrd⟩ := searchLoop_matched_entries self search_type items res hloop n rd hmem
  have hc : rd.calories = pyRound (r.calories * (rd.weight / 100)) := by
    have := congrArg ResultData.calories hrd
    simpa [scaledEntry] using this
  have hf : rd.fats = pyRound (r.fats * (rd.weight / 100)) := by
    have := congrArg ResultData.fats hrd
    simpa [scaledEntry] using this
  have hp : rd.proteins = pyRound (r.proteins * (rd.weight / 100)) := by
    have := congrArg ResultData.proteins hrd
    simpa [scaledEntry] using this
  have hb : rd.carbohydrates = pyRound (r.carbohydrates * (rd.weight / 100)) := by
    have := congrArg ResultData.carbohydrates hrd
    simpa [scaledEntry] using this
  refine ⟨⟨r, hl, hc, hf, hp, hb⟩, ?_, ?_, ?_, ?_, ?_, ?_, ?_⟩
  · rw [hc]; exact pyRound_den _
  · rw [hf]; exact pyRound_den _
  · rw [hp]; exact pyRound_den _
  · rw [hb]; exact pyRound_den _
  · with_unfolding_all decide
  · with_unfolding_all decide
  · with_unfolding_all decide

theorem c10_witness :
    ((⟨"apple", 150, 78, 0, 0, 21⟩ : ResultData).calories).den = 1 ∧
      pyRound (1/2) = 0 ∧ pyRound (3/2) = 2 :=
  ⟨(c10_round_half_even_whole cMain [("aple", 150)] ("fuzzy")
      [(("aple" : String), some (⟨"apple", 150, 78, 0, 0, 21⟩ : ResultData))] ("aple")
      (⟨"apple", 150, 78, 0, 0, 21⟩ : ResultData)
      (by with_unfolding_all decide) (by simp)).2.1,
   (c10_round_half_even_whole cMain [("aple", 150)] ("fuzzy")
      [(("aple" : String), some (⟨"apple", 150, 78, 0, 0, 21⟩ : ResultData))] ("aple")
      (⟨"apple", 150, 78, 0, 0, 21⟩ : ResultData)
      (by with_unfolding_all decide) (by simp)).2.2.2.2.2.1,
   (c10_round_half_even_whole cMain [("aple", 150)] ("fuzzy")
      [(("aple" : String), some (⟨"apple", 150, 78, 0, 0, 21⟩ : ResultData))] ("aple")
      (⟨"apple", 150, 78, 0, 0, 21⟩ : ResultData)
      (by with_unfolding_all decide) (by simp)).2.2.2.2.2.2.1⟩

/-- C9: under both valid strategies, the public `search` is exactly per-item
resolution of the positive-weight entries at matcher threshold 0.6: `search`
takes no threshold parameter, so no caller-supplied threshold can reach
either matcher through it. -/
theorem c9_threshold_fixed (self : IngredientNutritionSearch)
    (items : List (String × ℚ)) (search_type : String)
    (h : search_type = "fuzzy" ∨ search_type = "semantic") :
    search self items search_type =
      resolveBatch self search_type (0.6 : ℚ)
        (items.filter (fun p => decide (0 < p.2))) := by
  have hguard : ¬(search_type ≠ "fuzzy" ∧ search_type ≠ "semantic") := by
    rcases h with h | h <;> simp [h]
  rw [search, if_neg hguard]
  induction items with
  | nil => rfl
  | cons p rest ih =>
    obtain ⟨name, w⟩ := p
    by_cases hw : 0 < w
    · cases hd : dispatchMatch self search_type name (0.6 : ℚ) with
      | error e =>
        simp [searchLoop, List.filter_cons, hw, hd, resolveBatch, resolveOne]
      | ok om =>
        cases he : entryResult self w om with
        | error e =>
          simp [searchLoop, List.filter_cons, hw, hd, he, resolveBatch, resolveOne]
        | ok entry =>
          rw [List.filter_cons, decide_eq_true hw, if_pos rfl, resolveBatch]
          simp only [searchLoop, if_pos hw, hd, he, resolveOne]
          rw [ih]
          cases resolveBatch self search_type (0.6 : ℚ)
              (rest.filter (fun p => decide (0 < p.2))) with
          | error e => rfl
          | ok res => rfl
    · rw [List.filter_cons, decide_eq_false hw, if_neg (by simp)]
      rw [searchLoop, if_neg hw]
      exact ih

theorem c9_witness :
    search cMain [("aple", 150), ("pear", -3)] ("fuzzy") =
      resolveBatch cMain ("fuzzy") (0.6 : ℚ)
        ([("aple", (150 : ℚ)), ("pear", -3)].filter (fun p => decide (0 < p.2))) :=
  c9_threshold_fixed cMain [("aple", 150), ("pear", -3)] ("fuzzy") (Or.inl rfl)

/-- C4 (amended): a matcher failure on one query under the semantic strategy
propagates as an error for the whole `search` call: processing stops at the
failing query and no result is returned, not even the entries of the batch
already processed before the failure. -/
theorem c4_matcher_failure_aborts_batch (self : IngredientNutritionSearch)
    (pre rest : List (String × ℚ)) (q : String) (w : ℚ) (e : PyError)
    (l : List (String × Option ResultData))
    (hpre : search self pre ("semantic") = Except.ok l)
    (hw : 0 < w)
    (hfail : semantic_search self q (0.6 : ℚ) = Except.error e) :
    search self (pre ++ (q, w) :: rest) ("semantic") = Except.error e := by
  rw [search_semantic_loop] at hpre
  rw [search_semantic_loop]
  have hd : dispatchMatch self ("semantic") q (0.6 : ℚ) = Except.error e := by
    simp [dispatchMatch, hfail]
  induction pre generalizing l with
  | nil =>
    simp [searchLoop, hw, hd]
  | cons p pre' ih =>
    obtain ⟨n0, w0⟩ := p
    by_cases h0 : 0 < w0
    · cases hd0 : dispatchMatch self ("semantic") n0 (0.6 : ℚ) with
      | error e2 => simp [searchLoop, h0, hd0] at hpre
      | ok om =>
        cases he0 : entryResult self w0 om with
        | error e2 => simp [searchLoop, h0, hd0, he0] at hpre
        | ok entry =>
          simp only [searchLoop, if_pos h0, hd0, he0] at hpre
          obtain ⟨l', hl', _⟩ := except_map_ok hpre
          rw [List.cons_append]
          simp only [searchLoop, if_pos h0, hd0, he0]
          rw [ih l' hl']
          rfl
    · rw [searchLoop, if_neg h0] at hpre
      rw [List.cons_append, searchLoop, if_neg h0]
      exact ih l hpre

theorem c4_counterexample :
    search cErr [("egg", 10), ("apple", 50)] ("semantic") =
      Except.error (.runtimeError ("boom")) := by
  with_unfolding_all decide

theorem c4_witness :
    search cErr [("apple", 50), ("egg", 10), ("pear", 5)] ("semantic") =
      Except.error (.runtimeError ("boom")) :=
  c4_matcher_failure_aborts_batch cErr [("apple", 50)] [("pear", 5)] ("egg") 10
    (.runtimeError ("boom"))
    [(("apple" : String), some (⟨"apple", 50, 26, 0, 0, 7⟩ : ResultData))]
    (by with_unfolding_all decide) (by norm_num) (by with_unfolding_all decide)

theorem foldMax_mem (rest : List (ℚ × String)) :
    ∀ acc, rest.foldl (fun best q => if tupleLtb best q then q else best) acc = acc ∨
      rest.foldl (fun best q => if tupleLtb best q then q else best) acc ∈ rest := by
  induction rest with
  | nil => intro acc; exact Or.inl rfl
  | cons q rest' ih =>
    intro acc
    rw [List.foldl_cons]
    rcases ih (if tupleLtb acc q then q else acc) with h | h
    · rw [h]
      by_cases hq : tupleLtb acc q = true
      · rw [if_pos hq]; exact Or.inr (List.mem_cons_self _ _)
      · rw [if_neg hq]; exact Or.inl rfl
    · exact Or.inr (List.mem_cons_of_mem _ h)

theorem foldMax_ge (rest : List (ℚ × String)) :
    ∀ acc, acc.1 ≤ (rest.foldl (fun best q => if tupleLtb best q then q else best) acc).1 ∧
      ∀ q ∈ rest, q.1 ≤ (rest.foldl (fun best q => if tupleLtb best q then q else best) acc).1 := by
  induction rest with
  | nil => intro acc; exact ⟨le_refl _, by simp⟩
  | cons q rest' ih =>
    intro acc
    rw [List.foldl_cons]
    obtain ⟨h1, h2⟩ := ih (if tupleLtb acc q then q else acc)
    have hstep : acc.1 ≤ (if tupleLtb acc q then q else acc).1 ∧
        q.1 ≤ (if tupleLtb acc q then q else acc).1 := by
      by_cases hq : tupleLtb acc q = true
      · rw [if_pos hq]
        have hlt : acc.1 < q.1 ∨ (acc.1 = q.1 ∧ acc.2 < q.2) := by
          simpa [tupleLtb] using hq
        rcases hlt with hlt | hlt
        · exact ⟨le_of_lt hlt, le_refl _⟩
        · exact ⟨le_of_eq hlt.1, le_refl _⟩
      · rw [if_neg hq]
        have hnlt : ¬(acc.1 < q.1 ∨ (acc.1 = q.1 ∧ acc.2 < q.2)) := by
          simpa [tupleLtb] using hq
        push_neg at hnlt
        exact ⟨le_refl _, hnlt.1⟩
    refine ⟨le_trans hstep.1 h1, fun r hr => ?_⟩
    rcases List.mem_cons.mp hr with rfl | hr'
    · exact le_trans hstep.2 h1
    · exact h2 r hr'

theorem nlargest1_spec {l : List (ℚ × String)} {p : ℚ × String} (h : nlargest1 l = some p) :
    p ∈ l ∧ ∀ q ∈ l, q.1 ≤ p.1 := by
  cases l with
  | nil => simp [nlargest1] at h
  | cons p0 rest =>
    simp only [nlargest1, Option.some.injEq] at h
    subst h
    constructor
    · rcases foldMax_mem rest p0 with h | h
      · rw [h]; exact List.mem_cons_self _ _
      · exact List.mem_cons_of_mem _ h
    · intro q hq
      obtain ⟨h1, h2⟩ := foldMax_ge rest p0
      rcases List.mem_cons.mp hq with rfl | hq'
      · exact h1
      · exact h2 q hq'

theorem nlargest1_eq_none {l : List (ℚ × String)} : nlargest1 l = none ↔ l = [] := by
  cases l <;> simp [nlargest1]

theorem get_close_matches1_some {word : String} {possibilities : List String} {cutoff : ℚ}
    {c : String} (h : get_close_matches1 word possibilities cutoff = some c) :
    c ∈ possibilities ∧ cutoff ≤ ratioOf c.data word.data ∧
      ∀ x ∈ possibilities, ratioOf x.data word.data ≤ ratioOf c.data word.data := by
  unfold get_close_matches1 at h
  obtain ⟨p, hp, hc⟩ := Option.map_eq_some'.mp h
  obtain ⟨hmem, hmax⟩ := nlargest1_spec hp
  obtain ⟨x, hx, hfx⟩ := List.mem_filterMap.mp hmem
  by_cases hcut : cutoff ≤ ratioOf x.data word.data
  · rw [if_pos hcut] at hfx
    have hpx : p = (ratioOf x.data word.data, x) := by simpa using hfx.symm
    have hcx : c = x := by rw [← hc, hpx]
    subst hcx
    refine ⟨hx, hcut, fun y hy => ?_⟩
    by_cases hycut : cutoff ≤ ratioOf y.data word.data
    · have hyin : (ratioOf y.data word.data, y) ∈
          possibilities.filterMap (fun x =>
            if cutoff ≤ ratioOf x.data word.data then
              some (ratioOf x.data word.data, x) else none) :=
        List.mem_filterMap.mpr ⟨y, hy, by rw [if_pos hycut]⟩
      have := hmax _ hyin
      rw [hpx] at this
      exact this
    · exact le_trans (le_of_lt (not_le.mp hycut)) hcut
  · rw [if_neg hcut] at hfx
    exact absurd hfx (by simp)

theorem get_close_matches1_eq_none {word : String} {possibilities : List String} {cutoff : ℚ} :
    get_close_matches1 word possibilities cutoff = none ↔
      ∀ x ∈ possibilities, ratioOf x.data word.data < cutoff := by
  unfold get_close_matches1
  rw [Option.map_eq_none', nlargest1_eq_none, List.filterMap_eq_nil_iff]
  constructor
  · intro h x hx
    have := h x hx
    by_contra hcut
    rw [if_pos (not_lt.mp hcut)] at this
    exact absurd this (by simp)
  · intro h x hx
    rw [if_neg (not_le.mpr (h x hx))]

/-- C6: the lexical matcher lowercases the query, returns a candidate only
when it scores at least the threshold against the lowercased query, the
returned candidate scores maximally among all candidates, and it returns
nothing exactly when no candidate reaches the threshold. -/
theorem c6_fuzzy_matcher_contract (self : IngredientNutritionSearch) (q : String) (thr : ℚ) :
    (∀ m, fuzzy_search self q thr = some m →
      m ∈ ingredients self ∧ thr ≤ ratioOf m.data (strLower q).data ∧
        ∀ c ∈ ingredients self,
          ratioOf c.data (strLower q).data ≤ ratioOf m.data (strLower q).data) ∧
      (fuzzy_search self q thr = none ↔
        ∀ c ∈ ingredients self, ratioOf c.data (strLower q).data < thr) := by
  constructor
  · intro m hm
    exact get_close_matches1_some hm
  · exact get_close_matches1_eq_none

theorem c6_witness :
    ("apple" : String) ∈ ingredients cMain ∧
      (0.6 : ℚ) ≤ ratioOf ("apple").data (strLower ("aple")).data :=
  ⟨((c6_fuzzy_matcher_contract cMain ("aple") (0.6 : ℚ)).1 ("apple")
      (by with_unfolding_all decide)).1,
   ((c6_fuzzy_matcher_contract cMain ("aple") (0.6 : ℚ)).1 ("apple")
      (by with_unfolding_all decide)).2.1⟩

theorem argmaxGo_const (xs : List ℚ) :
    ∀ i bi bv, (∀ y ∈ xs, ¬ bv < y) → argmaxGo xs i bi bv = bi := by
  induction xs with
  | nil => intro i bi bv _; rfl
  | cons x xs' ih =>
    intro i bi bv h
    simp only [argmaxGo]
    rw [if_neg (h x (List.mem_cons_self _ _))]
    exact ih (i + 1) bi bv (fun y hy => h y (List.mem_cons_of_mem _ hy))

theorem argmaxGo_first_max (xs : List ℚ) :
    ∀ i bi bv p, p < xs.length → bv < xs.getD p 0 →
      (∀ m, m < xs.length → m ≠ p → xs.getD m 0 < xs.getD p 0) →
      argmaxGo xs i bi bv = i + p := by
  induction xs with
  | nil => intro i bi bv p hp; simp at hp
  | cons x xs' ih =>
    intro i bi bv p hp hbv hmax
    cases p with
    | zero =>
      rw [List.getD_cons_zero] at hbv
      simp only [argmaxGo]
      rw [if_pos hbv, Nat.add_zero]
      refine argmaxGo_const xs' (i + 1) i x (fun y hy => ?_)
      obtain ⟨m, hm, hym⟩ := List.mem_iff_getElem.mp hy
      have := hmax (m + 1) (by simpa using Nat.succ_lt_succ hm) (Nat.succ_ne_zero m)
      rw [List.getD_cons_succ, List.getD_cons_zero] at this
      rw [← hym]
      have hg : xs'.getD m 0 = xs'[m] := List.getD_eq_getElem xs' 0 hm
      rw [hg] at this
      exact not_lt.mpr (le_of_lt this)
    | succ p' =>
      have hp' : p' < xs'.length := by simpa using Nat.lt_of_succ_lt_succ hp
      rw [List.getD_cons_succ] at hbv
      have hmax' : ∀ m, m < xs'.length → m ≠ p' → xs'.getD m 0 < xs'.getD p' 0 := by
        intro m hm hne
        have := hmax (m + 1) (by simpa using Nat.succ_lt_succ hm)
          (fun hc => hne (Nat.succ_injective hc))
        rwa [List.getD_cons_succ, List.getD_cons_succ] at this
      have hx : x < xs'.getD p' 0 := by
        have := hmax 0 (by simp) ((Nat.succ_ne_zero p').symm)
        rwa [List.getD_cons_zero, List.getD_cons_succ] at this
      simp only [argmaxGo]
      by_cases hbx : bv < x
      · rw [if_pos hbx, ih (i + 1) i x p' hp' hx hmax']
        omega
      · rw [if_neg hbx, ih (i + 1) bi bv p' hp' hbv hmax']
        omega

theorem argmaxGo_lt (xs : List ℚ) :
    ∀ i bi bv, bi < i → argmaxGo xs i bi bv < i + xs.length := by
  induction xs with
  | nil =>
    intro i bi bv h
    simpa [argmaxGo] using h
  | cons x xs' ih =>
    intro i bi bv h
    simp only [argmaxGo, List.length_cons]
    by_cases hx : bv < x
    · rw [if_pos hx]
      have := ih (i + 1) i x (Nat.lt_succ_self i)
      omega
    · rw [if_neg hx]
      have := ih (i + 1) bi bv (Nat.lt_succ_of_lt h)
      omega

theorem argmaxIdx_lt_length {s : List ℚ} {r : Nat} (h : argmaxIdx s = some r) : r < s.length := by
  cases s with
  | nil => simp [argmaxIdx] at h
  | cons x xs =>
    simp only [argmaxIdx, Option.some.injEq] at h
    subst h
    have := argmaxGo_lt xs 1 0 x (Nat.zero_lt_one)
    simp only [List.length_cons]
    omega

theorem argmaxIdx_first_max {s : List ℚ} {i : Nat} (hi : i < s.length)
    (hmax : ∀ j, j < s.length → j ≠ i → s.getD j 0 < s.getD i 0) :
    argmaxIdx s = some i := by
  cases s with
  | nil => simp at hi
  | cons x xs =>
    simp only [argmaxIdx, Option.some.injEq]
    cases i with
    | zero =>
      refine argmaxGo_const xs 1 0 x (fun y hy => ?_)
      obtain ⟨m, hm, hym⟩ := List.mem_iff_getElem.mp hy
      have := hmax (m + 1) (by simpa using Nat.succ_lt_succ hm) (Nat.succ_ne_zero m)
      rw [List.getD_cons_succ, List.getD_cons_zero] at this
      rw [← hym]
      have hg : xs.getD m 0 = xs[m] := List.getD_eq_getElem xs 0 hm
      rw [hg] at this
      exact not_lt.mpr (le_of_lt this)
    | succ i' =>
      have hi' : i' < xs.length := by simpa using Nat.lt_of_succ_lt_succ hi
      have hx : x < xs.getD i' 0 := by
        have := hmax 0 (by simp) ((Nat.succ_ne_zero i').symm)
        rwa [List.getD_cons_zero, List.getD_cons_succ] at this
      have hmax' : ∀ m, m < xs.length → m ≠ i' → xs.getD m 0 < xs.getD i' 0 := by
        intro m hm hne
        have := hmax (m + 1) (by simpa using Nat.succ_lt_succ hm)
          (fun hc => hne (Nat.succ_injective hc))
        rwa [List.getD_cons_succ, List.getD_cons_succ] at this
      rw [argmaxGo_first_max xs 1 0 x i' hi' hx hmax']
      omega

theorem encodeAll_ok_length {f : String → Except PyError (List ℚ)} :
    ∀ {names : List String} {embs : List (List ℚ)},
      encodeAll f names = Except.ok embs → embs.length = names.length := by
  intro names
  induction names with
  | nil => intro embs h; simp only [encodeAll] at h; cases h; rfl
  | cons s rest ih =>
    intro embs h
    cases hf : f s with
    | error e => simp [encodeAll, hf] at h
    | ok v =>
      cases hr : encodeAll f rest with
      | error e => simp [encodeAll, hf, hr] at h
      | ok vs =>
        simp only [encodeAll, hf, hr] at h
        cases h
        simp [ih hr]

theorem encodeAll_ok_getD {f : String → Except PyError (List ℚ)} :
    ∀ {names : List String} {embs : List (List ℚ)},
      encodeAll f names = Except.ok embs →
      ∀ j, j < names.length → f (names.getD j nilStr) = Except.ok (embs.getD j []) := by
  intro names
  induction names with
  | nil => intro embs h j hj; simp at hj
  | cons s rest ih =>
    intro embs h j hj
    cases hf : f s with
    | error e => simp [encodeAll, hf] at h
    | ok v =>
      cases hr : encodeAll f rest with
      | error e => simp [encodeAll, hf, hr] at h
      | ok vs =>
        simp only [encodeAll, hf, hr] at h
        cases h
        cases j with
        | zero => simpa using hf
        | succ j' =>
          have hj' : j' < rest.length := by simpa using Nat.lt_of_succ_lt_succ hj
          simpa using ih hr j' hj'

theorem lookup_mem_keys {l : List (String × NutritionRecord)} {k : String}
    (h : k ∈ l.map Prod.fst) : ∃ r, List.lookup k l = some r := by
  induction l with
  | nil => simp at h
  | cons p rest ih =>
    obtain ⟨n, r⟩ := p
    simp only [List.map_cons, List.mem_cons] at h
    by_cases he : k = n
    · subst he
      exact ⟨r, by simp [List.lookup]⟩
    · have h' : k ∈ rest.map Prod.fst := by
        rcases h with h | h
        · exact absurd h he
        · exact h
      obtain ⟨r', hr'⟩ := ih h'
      refine ⟨r', ?_⟩
      simp only [List.lookup]
      rw [beq_eq_false_iff_ne.mpr he]
      exact hr'

theorem mem_keys_of_lookup {l : List (String × NutritionRecord)} {k : String}
    {r : NutritionRecord} (h : List.lookup k l = some r) : k ∈ l.map Prod.fst := by
  induction l with
  | nil => simp [List.lookup] at h
  | cons p rest ih =>
    obtain ⟨n, v⟩ := p
    by_cases he : k = n
    · subst he; simp
    · simp only [List.lookup] at h
      rw [beq_eq_false_iff_ne.mpr he] at h
      exact List.mem_cons_of_mem _ (ih h)

theorem semantic_search_mem {self : IngredientNutritionSearch} {q : String} {thr : ℚ}
    {m : String} (h : semantic_search self q thr = Except.ok (some m)) :
    m ∈ ingredients self := by
  cases he : self.encode (strLower q) with
  | error e => simp [semantic_search, he] at h
  | ok qe =>
    simp only [semantic_search, he] at h
    cases ha : argmaxIdx (self.embeddings.map fun v => self.cosSim qe v) with
    | none => simp [ha] at h
    | some idx =>
      simp only [ha] at h
      by_cases hthr : thr ≤ (self.embeddings.map fun v => self.cosSim qe v).getD idx 0
      · rw [if_pos hthr] at h
        have hm : m = (ingredients self).getD idx nilStr := by simpa using h.symm
        have hlen : idx < (ingredients self).length := by
          have h1 := argmaxIdx_lt_length ha
          rw [List.length_map] at h1
          have h2 : self.embeddings.length = (ingredients self).length :=
            encodeAll_ok_length self.embeddings_built
          rwa [h2] at h1
        have hg : (ingredients self).getD idx nilStr = (ingredients self)[idx] :=
          List.getD_eq_getElem _ _ hlen
        rw [hm, hg]
        exact List.getElem_mem hlen
      · rw [if_neg hthr] at h
        exact absurd h (by simp)

/-- C5: whenever either matcher returns a match, the match is one of the
ingredient names, i.e. a key of the nutrition table, so the
`self.data.get(match)` lookup in `search` always succeeds and the
`None`-record branch is unreachable. -/
theorem c5_match_lookup_infallible (self : IngredientNutritionSearch) (q : String) (thr : ℚ)
    (m : String)
    (h : fuzzy_search self q thr = some m ∨ semantic_search self q thr = Except.ok (some m)) :
    m ∈ ingredients self ∧ ∃ r, List.lookup m self.data = some r := by
  have hm : m ∈ ingredients self := by
    rcases h with h | h
    · exact (get_close_matches1_some h).1
    · exact semantic_search_mem h
  exact ⟨hm, lookup_mem_keys hm⟩

theorem c5_witness :
    ("apple" : String) ∈ ingredients cMain ∧
      ∃ r, List.lookup ("apple") cMain.data = some r :=
  c5_match_lookup_infallible cMain ("aple") (0.6 : ℚ) ("apple")
    (Or.inl (by with_unfolding_all decide))

theorem rowOK_zero (a b : List Char) (alo blo bhi i : Nat) :
    RowOK a b alo blo bhi i (fun _ => 0) := by
  intro j hj
  simp at hj

theorem rowOK_step {a b : List Char} {alo blo bhi i : Nat} {row : Nat → Nat}
    (h : RowOK a b alo blo bhi i row) (hi : alo ≤ i) :
    RowOK a b alo blo bhi (i + 1) (flmRow b (a.getD i default) blo bhi row) := by
  intro j hj
  unfold flmRow at hj ⊢
  by_cases hc : blo ≤ j ∧ j < bhi ∧ b.getD j default = a.getD i default
  · rw [if_pos hc]
    obtain ⟨hbj, hjb, hmatch0⟩ := hc
    by_cases hv : (if j = 0 then 0 else row (j - 1)) = 0
    · rw [hv]
      refine ⟨hbj, hjb, ?_, ?_, ?_⟩
      · omega
      · omega
      · intro d hd
        have hd0 : d = 0 := by omega
        subst hd0
        simpa using hmatch0.symm
    · have hj0 : j ≠ 0 := by
        intro hj0
        rw [if_pos hj0] at hv
        exact hv rfl
      rw [if_neg hj0] at hv ⊢
      have hpos : 0 < row (j - 1) := Nat.pos_of_ne_zero hv
      obtain ⟨hbj', hjb', hbk', hak', hmatch'⟩ := h (j - 1) hpos
      refine ⟨hbj, hjb, by omega, by omega, ?_⟩
      intro d hd
      cases d with
      | zero => simpa using hmatch0.symm
      | succ d' =>
        have hd' : d' < row (j - 1) := by omega
        have e1 : i + 1 - 1 - (d' + 1) = i - 1 - d' := by omega
        have e2 : j - (d' + 1) = j - 1 - d' := by omega
        rw [e1, e2]
        exact hmatch' d' hd'
  · rw [if_neg hc] at hj
    exact absurd hj (by simp)

theorem bestScanGo_blockOK {a b : List Char} {alo ahi blo bhi : Nat} {row : Nat → Nat} {i : Nat}
    (hrow : RowOK a b alo blo bhi (i + 1) row) (hi : i < ahi) :
    ∀ steps j best, BlockOK a b alo ahi blo bhi best →
      BlockOK a b alo ahi blo bhi (bestScanGo row i j steps best) := by
  intro steps
  induction steps with
  | zero => intro j best hb; exact hb
  | succ s ih =>
    intro j best hb
    simp only [bestScanGo]
    apply ih
    by_cases hc : best.2.2 < row j
    · rw [if_pos hc]
      have hk : 0 < row j := lt_of_le_of_lt (Nat.zero_le _) hc
      obtain ⟨hbj, hjb, hbk, hak, hmatch⟩ := hrow j hk
      refine Or.inr ?_
      dsimp only
      refine ⟨by omega, by omega, by omega, by omega, ?_⟩
      intro d hd
      have e1 : i + 1 - row j + d = i - (row j - 1 - d) := by omega
      have e2 : j + 1 - row j + d = j - (row j - 1 - d) := by omega
      rw [e1, e2]
      exact hmatch (row j - 1 - d) (by omega)
    · rw [if_neg hc]
      exact hb

theorem bestScanGo_k_mono (row : Nat → Nat) (i : Nat) :
    ∀ steps j best, best.2.2 ≤ (bestScanGo row i j steps best).2.2 := by
  intro steps
  induction steps with
  | zero => intro j best; exact le_refl _
  | succ s ih =>
    intro j best
    simp only [bestScanGo]
    refine le_trans ?_ (ih (j + 1) _)
    by_cases hc : best.2.2 < row j
    · rw [if_pos hc]
      exact le_of_lt hc
    · rw [if_neg hc]

theorem bestScanGo_ge_row (row : Nat → Nat) (i : Nat) :
    ∀ steps j best j', j ≤ j' → j' < j + steps →
      row j' ≤ (bestScanGo row i j steps best).2.2 := by
  intro steps
  induction steps with
  | zero => intro j best j' h1 h2; omega
  | succ s ih =>
    intro j best j' h1 h2
    simp only [bestScanGo]
    by_cases hj : j' = j
    · subst hj
      refine le_trans ?_ (bestScanGo_k_mono row i s (j' + 1) _)
      by_cases hc : best.2.2 < row j'
      · rw [if_pos hc]
      · rw [if_neg hc]
        exact not_lt.mp hc
    · exact ih (j + 1) _ j' (by omega) (by omega)

theorem flmGo_blockOK {a b : List Char} {alo ahi blo bhi : Nat} :
    ∀ steps i row best, RowOK a b alo blo bhi i row →
      BlockOK a b alo ahi blo bhi best → alo ≤ i → i + steps ≤ ahi →
      BlockOK a b alo ahi blo bhi (flmGo a b blo bhi i steps row best) := by
  intro steps
  induction steps with
  | zero => intro i row best _ hb _ _; exact hb
  | succ s ih =>
    intro i row best hrow hb hai his
    simp only [flmGo]
    exact ih (i + 1) _ _ (rowOK_step hrow hai)
      (bestScanGo_blockOK (rowOK_step hrow hai) (by omega) (bhi - blo) blo best hb)
      (by omega) (by omega)

theorem flmGo_k_mono (a b : List Char) (blo bhi : Nat) :
    ∀ steps i row best, best.2.2 ≤ (flmGo a b blo bhi i steps row best).2.2 := by
  intro steps
  induction steps with
  | zero => intro i row best; exact le_refl _
  | succ s ih =>
    intro i row best
    simp only [flmGo]
    exact le_trans (bestScanGo_k_mono _ i (bhi - blo) blo best) (ih (i + 1) _ _)

theorem flmGo_last_row_ge (a b : List Char) (blo bhi : Nat) :
    ∀ steps i row best j', 1 ≤ steps → blo ≤ j' → j' < bhi →
      (rowIter a b blo bhi i steps row) j' ≤ (flmGo a b blo bhi i steps row best).2.2 := by
  intro steps
  induction steps with
  | zero => intro i row best j' h; omega
  | succ s ih =>
    intro i row best j' _ hb1 hb2
    simp only [flmGo, rowIter]
    cases s with
    | zero =>
      simp only [rowIter, flmGo]
      exact bestScanGo_ge_row _ i (bhi - blo) blo best j' hb1 (by omega)
    | succ s' =>
      exact ih (i + 1) _ _ j' (by omega) hb1 hb2

theorem rowIter_diag (a b : List Char) (blo bhi : Nat) :
    ∀ t i j row v, blo ≤ j → j + t ≤ bhi →
      (∀ d, d < t → a.getD (i + d) default = b.getD (j + d) default) →
      ((j = 0 ∧ v = 0) ∨ (j ≠ 0 ∧ v ≤ row (j - 1))) →
      v + t ≤ (rowIter a b blo bhi i t row) (j + t - 1) := by
  intro t
  induction t with
  | zero =>
    intro i j row v hbj hjt hm hd
    simp only [rowIter, Nat.add_zero]
    rcases hd with ⟨hj0, hv0⟩ | ⟨hj0, hv⟩
    · subst hj0
      subst hv0
      exact Nat.zero_le _
    · exact hv
  | succ t' ih =>
    intro i j row v hbj hjt hm hd
    simp only [rowIter]
    have hrow' : v + 1 ≤ (flmRow b (a.getD i default) blo bhi row) j := by
      unfold flmRow
      have hcond : blo ≤ j ∧ j < bhi ∧ b.getD j default = a.getD i default := by
        refine ⟨hbj, by omega, ?_⟩
        have h0 := hm 0 (by omega)
        simpa using h0.symm
      rw [if_pos hcond]
      rcases hd with ⟨hj0, hv0⟩ | ⟨hj0, hv⟩
      · subst hv0
        omega
      · rw [if_neg hj0]
        omega
    have hrec := ih (i + 1) (j + 1) (flmRow b (a.getD i default) blo bhi row) (v + 1)
      (by omega) (by omega)
      (fun d hd' => by
        have hmd := hm (d + 1) (by omega)
        have e1 : i + (d + 1) = i + 1 + d := by omega
        have e2 : j + (d + 1) = j + 1 + d := by omega
        rwa [e1, e2] at hmd)
      (Or.inr ⟨Nat.succ_ne_zero j, by simpa using hrow'⟩)
    have e3 : j + 1 + t' - 1 = j + (t' + 1) - 1 := by omega
    rw [e3] at hrec
    omega

theorem extendL_blockOK {a b : List Char} {alo ahi blo bhi : Nat} :
    ∀ fuel t, BlockOK a b alo ahi blo bhi t →
      BlockOK a b alo ahi blo bhi (extendL a b alo blo fuel t) := by
  intro fuel
  induction fuel with
  | zero => intro t h; exact h
  | succ f ih =>
    intro t h
    simp only [extendL]
    by_cases hc : alo < t.1 ∧ blo < t.2.1 ∧
        a.getD (t.1 - 1) default = b.getD (t.2.1 - 1) default
    · rw [if_pos hc]
      apply ih
      rcases h with hinit | hb
      · exfalso
        rw [hinit] at hc
        exact absurd hc.1 (lt_irrefl alo)
      · obtain ⟨h1, h2, h3, h4, h5⟩ := hb
        obtain ⟨hc1, hc2, hc3⟩ := hc
        refine Or.inr ?_
        dsimp only
        refine ⟨by omega, by omega, by omega, by omega, ?_⟩
        intro d hd
        cases d with
        | zero => simpa using hc3
        | succ d' =>
          have e1 : t.1 - 1 + (d' + 1) = t.1 + d' := by omega
          have e2 : t.2.1 - 1 + (d' + 1) = t.2.1 + d' := by omega
          rw [e1, e2]
          exact h5 d' (by omega)
    · rw [if_neg hc]
      exact h

theorem extendR_blockOK {a b : List Char} {alo ahi blo bhi : Nat} :
    ∀ fuel t, BlockOK a b alo ahi blo bhi t →
      BlockOK a b alo ahi blo bhi (extendR a b ahi bhi fuel t) := by
  intro fuel
  induction fuel with
  | zero => intro t h; exact h
  | succ f ih =>
    intro t h
    simp only [extendR]
    by_cases hc : t.1 + t.2.2 < ahi ∧ t.2.1 + t.2.2 < bhi ∧
        a.getD (t.1 + t.2.2) default = b.getD (t.2.1 + t.2.2) default
    · rw [if_pos hc]
      apply ih
      have hcore : alo ≤ t.1 ∧ blo ≤ t.2.1 ∧
          ∀ d, d < t.2.2 → a.getD (t.1 + d) default = b.getD (t.2.1 + d) default := by
        rcases h with hinit | hb
        · rw [hinit]
          refine ⟨le_refl _, le_refl _, ?_⟩
          intro d hd
          simp at hd
        · exact ⟨hb.1, hb.2.2.1, hb.2.2.2.2⟩
      obtain ⟨hc1, hc2, hc3⟩ := hc
      refine Or.inr ?_
      dsimp only
      refine ⟨hcore.1, by omega, hcore.2.1, by omega, ?_⟩
      intro d hd
      rcases Nat.lt_succ_iff_lt_or_eq.mp hd with hd' | rfl
      · exact hcore.2.2 d hd'
      · exact hc3
    · rw [if_neg hc]
      exact h

theorem flm_blockOK (a b : List Char) (alo ahi blo bhi : Nat) :
    BlockOK a b alo ahi blo bhi (find_longest_match a b alo ahi blo bhi) := by
  unfold find_longest_match
  apply extendR_blockOK
  apply extendL_blockOK
  by_cases hle : alo ≤ ahi
  · exact flmGo_blockOK (ahi - alo) alo _ _ (rowOK_zero a b alo blo bhi alo)
      (Or.inl rfl) (le_refl _) (by omega)
  · have h0 : ahi - alo = 0 := by omega
    rw [h0]
    exact Or.inl rfl

theorem matchTotal_le (a b : List Char) :
    ∀ fuel alo ahi blo bhi, matchTotalAux a b fuel alo ahi blo bhi ≤ ahi - alo ∧
      matchTotalAux a b fuel alo ahi blo bhi ≤ bhi - blo := by
  intro fuel
  induction fuel with
  | zero => intro alo ahi blo bhi; simp [matchTotalAux]
  | succ f ih =>
    intro alo ahi blo bhi
    have hb := flm_blockOK a b alo ahi blo bhi
    rcases hfe : find_longest_match a b alo ahi blo bhi with ⟨i, j, k⟩
    rw [hfe] at hb
    simp only [matchTotalAux, hfe]
    by_cases hk : k = 0
    · rw [if_pos hk]
      simp
    · rw [if_neg hk]
      rcases hb with hinit | hbounds
      · exfalso
        exact hk (congrArg (fun t => t.2.2) hinit)
      · obtain ⟨hai, haik, hbj, hbjk, _⟩ := hbounds
        dsimp only at hai haik hbj hbjk
        have hX : (if alo < i ∧ blo < j then matchTotalAux a b f alo i blo j else 0) ≤ i - alo ∧
            (if alo < i ∧ blo < j then matchTotalAux a b f alo i blo j else 0) ≤ j - blo := by
          by_cases hc : alo < i ∧ blo < j
          · rw [if_pos hc]; exact ih alo i blo j
          · rw [if_neg hc]; simp
        have hY : (if i + k < ahi ∧ j + k < bhi then
              matchTotalAux a b f (i + k) ahi (j + k) bhi else 0) ≤ ahi - (i + k) ∧
            (if i + k < ahi ∧ j + k < bhi then
              matchTotalAux a b f (i + k) ahi (j + k) bhi else 0) ≤ bhi - (j + k) := by
          by_cases hc : i + k < ahi ∧ j + k < bhi
          · rw [if_pos hc]; exact ih (i + k) ahi (j + k) bhi
          · rw [if_neg hc]; simp
        omega

theorem matchTotal_full (a b : List Char) :
    ∀ fuel alo ahi blo bhi,
      matchTotalAux a b fuel alo ahi blo bhi = ahi - alo →
      matchTotalAux a b fuel alo ahi blo bhi = bhi - blo →
      ∀ d, d < ahi - alo → a.getD (alo + d) default = b.getD (blo + d) default := by
  intro fuel
  induction fuel with
  | zero =>
    intro alo ahi blo bhi h1 h2 d hd
    simp only [matchTotalAux] at h1
    omega
  | succ f ih =>
    intro alo ahi blo bhi h1 h2 d hd
    have hb := flm_blockOK a b alo ahi blo bhi
    rcases hfe : find_longest_match a b alo ahi blo bhi with ⟨i, j, k⟩
    rw [hfe] at hb
    simp only [matchTotalAux, hfe] at h1 h2
    by_cases hk : k = 0
    · rw [if_pos hk] at h1
      omega
    · rw [if_neg hk] at h1 h2
      rcases hb with hinit | hbounds
      · exact absurd (congrArg (fun t => t.2.2) hinit) hk
      · obtain ⟨hai, haik, hbj, hbjk, hmatch⟩ := hbounds
        dsimp only at hai haik hbj hbjk hmatch
        set X := (if alo < i ∧ blo < j then matchTotalAux a b f alo i blo j else 0) with hXdef
        set Y := (if i + k < ahi ∧ j + k < bhi then
          matchTotalAux a b f (i + k) ahi (j + k) bhi else 0) with hYdef
        have hXb : X ≤ i - alo ∧ X ≤ j - blo := by
          rw [hXdef]
          by_cases hc : alo < i ∧ blo < j
          · rw [if_pos hc]; exact matchTotal_le a b f alo i blo j
          · rw [if_neg hc]; simp
        have hYb : Y ≤ ahi - (i + k) ∧ Y ≤ bhi - (j + k) := by
          rw [hYdef]
          by_cases hc : i + k < ahi ∧ j + k < bhi
          · rw [if_pos hc]; exact matchTotal_le a b f (i + k) ahi (j + k) bhi
          · rw [if_neg hc]; simp
        have hXeq : X = i - alo ∧ X = j - blo ∧ Y = ahi - (i + k) ∧ Y = bhi - (j + k) := by
          omega
        by_cases hd1 : d < i - alo
        · have hcl : alo < i ∧ blo < j := by
            by_contra hcon
            have hX0 : X = 0 := by rw [hXdef, if_neg hcon]
            omega
          have hXval : matchTotalAux a b f alo i blo j = X := by
            rw [hXdef, if_pos hcl]
          have := ih alo i blo j (by omega) (by omega) d hd1
          exact this
        · by_cases hd2 : d < i - alo + k
          · have e1 : alo + d = i + (d - (i - alo)) := by omega
            have e2 : blo + d = j + (d - (i - alo)) := by omega
            rw [e1, e2]
            exact hmatch (d - (i - alo)) (by omega)
          · have hcr : i + k < ahi ∧ j + k < bhi := by
              by_contra hcon
              have hY0 : Y = 0 := by rw [hYdef, if_neg hcon]
              omega
            have hYval : matchTotalAux a b f (i + k) ahi (j + k) bhi = Y := by
              rw [hYdef, if_pos hcr]
            have hrec := ih (i + k) ahi (j + k) bhi (by omega) (by omega)
              (d - (i - alo) - k) (by omega)
            have e1 : alo + d = i + k + (d - (i - alo) - k) := by omega
            have e2 : blo + d = j + k + (d - (i - alo) - k) := by omega
            rw [e1, e2]
            exact hrec

theorem extendL_irrefl (a b : List Char) (alo blo : Nat) (fuel : Nat) (j k : Nat) :
    extendL a b alo blo fuel (alo, j, k) = (alo, j, k) := by
  cases fuel with
  | zero => rfl
  | succ f =>
    simp only [extendL]
    rw [if_neg (fun hcon => absurd hcon.1 (lt_irrefl alo))]

theorem extendR_stop (a b : List Char) (ahi bhi : Nat) (fuel : Nat) (i j k : Nat)
    (hik : i + k = ahi) : extendR a b ahi bhi fuel (i, j, k) = (i, j, k) := by
  cases fuel with
  | zero => rfl
  | succ f =>
    simp only [extendR]
    rw [if_neg (fun hcon => absurd hcon.1 (by omega))]

theorem flm_eq_self (a b : List Char) (alo blo L : Nat) (hL : 0 < L)
    (hmatch : ∀ d, d < L → a.getD (alo + d) default = b.getD (blo + d) default) :
    find_longest_match a b alo (alo + L) blo (blo + L) = (alo, blo, L) := by
  have hsteps : alo + L - alo = L := by omega
  have hcore_bOK : BlockOK a b alo (alo + L) blo (blo + L)
      (flmGo a b blo (blo + L) alo L (fun _ => 0) (alo, blo, 0)) :=
    flmGo_blockOK L alo _ _ (rowOK_zero a b alo blo (blo + L) alo) (Or.inl rfl)
      (le_refl _) (by omega)
  have hdisj : (blo = 0 ∧ (0 : Nat) = 0) ∨ (blo ≠ 0 ∧ 0 ≤ (fun _ => (0 : Nat)) (blo - 1)) := by
    by_cases hb0 : blo = 0
    · exact Or.inl ⟨hb0, rfl⟩
    · exact Or.inr ⟨hb0, le_refl 0⟩
  have hdiag : L ≤ (rowIter a b blo (blo + L) alo L (fun _ => 0)) (blo + L - 1) := by
    have := rowIter_diag a b blo (blo + L) L alo blo (fun _ => 0) 0 (le_refl _) (le_refl _)
      hmatch hdisj
    simpa using this
  have hlow : L ≤ (flmGo a b blo (blo + L) alo L (fun _ => 0) (alo, blo, 0)).2.2 :=
    le_trans hdiag
      (flmGo_last_row_ge a b blo (blo + L) L alo _ _ (blo + L - 1) hL (by omega) (by omega))
  have hcore : flmGo a b blo (blo + L) alo L (fun _ => 0) (alo, blo, 0) = (alo, blo, L) := by
    rcases hcore_bOK with hinit | hbounds
    · exfalso
      rw [hinit] at hlow
      dsimp only at hlow
      omega
    · obtain ⟨h1, h2, h3, h4, _⟩ := hbounds
      have hup : (flmGo a b blo (blo + L) alo L (fun _ => 0) (alo, blo, 0)).2.2 ≤ L := by omega
      have hk : (flmGo a b blo (blo + L) alo L (fun _ => 0) (alo, blo, 0)).2.2 = L :=
        le_antisymm hup hlow
      have hi : (flmGo a b blo (blo + L) alo L (fun _ => 0) (alo, blo, 0)).1 = alo := by omega
      have hj : (flmGo a b blo (blo + L) alo L (fun _ => 0) (alo, blo, 0)).2.1 = blo := by omega
      have heta : flmGo a b blo (blo + L) alo L (fun _ => 0) (alo, blo, 0) =
          ((flmGo a b blo (blo + L) alo L (fun _ => 0) (alo, blo, 0)).1,
           (flmGo a b blo (blo + L) alo L (fun _ => 0) (alo, blo, 0)).2.1,
           (flmGo a b blo (blo + L) alo L (fun _ => 0) (alo, blo, 0)).2.2) := rfl
      rw [heta, hi, hj, hk]
  unfold find_longest_match
  dsimp only
  rw [hsteps, hcore, extendL_irrefl a b alo blo _ blo L,
    extendR_stop a b (alo + L) (blo + L) _ alo blo L rfl]

theorem matchTotal_eq_of_seg_eq (a b : List Char) (alo blo L : Nat) (hL : 0 < L)
    (hmatch : ∀ d, d < L → a.getD (alo + d) default = b.getD (blo + d) default)
    (f : Nat) :
    matchTotalAux a b (f + 1) alo (alo + L) blo (blo + L) = L := by
  have hflm := flm_eq_self a b alo blo L hL hmatch
  simp only [matchTotalAux, hflm]
  simp [hL.ne', lt_self_iff_false]

theorem ratioOf_self (a : List Char) : ratioOf a a = 1 := by
  unfold ratioOf
  by_cases h : a.length + a.length = 0
  · rw [if_pos h]
  · rw [if_neg h]
    have hL : 0 < a.length := by omega
    have hm : matchTotalAux a a (a.length + a.length + 1) 0 a.length 0 a.length = a.length := by
      have := matchTotal_eq_of_seg_eq a a 0 0 a.length hL (fun d hd => rfl)
        (a.length + a.length)
      simpa using this
    rw [hm]
    have hb : ((a.length + a.length : Nat) : ℚ) ≠ 0 := by
      exact_mod_cast h
    rw [div_eq_one_iff_eq hb]
    push_cast
    ring

theorem ratioOf_le_one (a b : List Char) : ratioOf a b ≤ 1 := by
  unfold ratioOf
  by_cases h : a.length + b.length = 0
  · rw [if_pos h]
  · rw [if_neg h]
    have hle := matchTotal_le a b (a.length + b.length + 1) 0 a.length 0 b.length
    have h2 : 2 * matchTotalAux a b (a.length + b.length + 1) 0 a.length 0 b.length ≤
        a.length + b.length := by omega
    have hpos : (0 : ℚ) < ((a.length + b.length : Nat) : ℚ) := by
      exact_mod_cast Nat.pos_of_ne_zero h
    rw [div_le_one hpos]
    calc 2 * (matchTotalAux a b (a.length + b.length + 1) 0 a.length 0 b.length : ℚ)
        = ((2 * matchTotalAux a b (a.length + b.length + 1) 0 a.length 0 b.length : Nat) : ℚ) := by
          push_cast; ring
      _ ≤ ((a.length + b.length : Nat) : ℚ) := by exact_mod_cast h2

theorem ratioOf_eq_one {a b : List Char} (h : ratioOf a b = 1) : a = b := by
  unfold ratioOf at h
  by_cases hT : a.length + b.length = 0
  · have ha : a = [] := List.length_eq_zero.mp (by omega)
    have hb : b = [] := List.length_eq_zero.mp (by omega)
    rw [ha, hb]
  · rw [if_neg hT] at h
    have hb0 : ((a.length + b.length : Nat) : ℚ) ≠ 0 := by
      exact_mod_cast hT
    rw [div_eq_one_iff_eq hb0] at h
    have h3 : 2 * matchTotalAux a b (a.length + b.length + 1) 0 a.length 0 b.length =
        a.length + b.length := by
      exact_mod_cast h
    have hle := matchTotal_le a b (a.length + b.length + 1) 0 a.length 0 b.length
    have hMa : matchTotalAux a b (a.length + b.length + 1) 0 a.length 0 b.length =
        a.length - 0 := by omega
    have hMb : matchTotalAux a b (a.length + b.length + 1) 0 a.length 0 b.length =
        b.length - 0 := by omega
    have hfull := matchTotal_full a b (a.length + b.length + 1) 0 a.length 0 b.length hMa hMb
    have hlen : a.length = b.length := by omega
    apply List.ext_getElem hlen
    intro i h1 h2
    have hgi := hfull i (by omega)
    rw [Nat.zero_add] at hgi
    rwa [List.getD_eq_getElem a default h1, List.getD_eq_getElem b default h2] at hgi

theorem get_close_matches1_self {word : String} {possibilities : List String} {cutoff : ℚ}
    (hmem : word ∈ possibilities) (hcut : cutoff ≤ 1) :
    get_close_matches1 word possibilities cutoff = some word := by
  cases hres : get_close_matches1 word possibilities cutoff with
  | none =>
    rw [get_close_matches1_eq_none] at hres
    have := hres word hmem
    rw [ratioOf_self] at this
    exact absurd hcut (not_le.mpr this)
  | some c =>
    obtain ⟨hcmem, hccut, hcmax⟩ := get_close_matches1_some hres
    have h1 : ratioOf word.data word.data ≤ ratioOf c.data word.data := hcmax word hmem
    rw [ratioOf_self] at h1
    have h3 : ratioOf c.data word.data = 1 := le_antisymm (ratioOf_le_one _ _) h1
    have h4 : c.data = word.data := ratioOf_eq_one h3
    have h5 : c = word := by
      cases c
      cases word
      exact congrArg String.mk (by simpa using h4)
    rw [h5]

theorem fuzzy_search_exact (self : IngredientNutritionSearch) (n : String)
    (hmem : n ∈ ingredients self) (hlow : strLower n = n) (thr : ℚ) (hthr : thr ≤ 1) :
    fuzzy_search self n thr = some n := by
  unfold fuzzy_search
  rw [hlow]
  exact get_close_matches1_self hmem hthr

theorem semantic_search_exact (self : IngredientNutritionSearch) (n : String) (qe : List ℚ)
    (hlow : strLower n = n)
    (hmem : n ∈ ingredients self)
    (henc : self.encode n = Except.ok qe)
    (hself : self.cosSim qe qe = 1)
    (hothers : ∀ j, j < (ingredients self).length →
      (ingredients self).getD j nilStr ≠ n →
      self.cosSim qe (self.embeddings.getD j []) < 1)
    (thr : ℚ) (hthr : thr ≤ 1) :
    semantic_search self n thr = Except.ok (some n) := by
  obtain ⟨i, hi, hgi⟩ := List.mem_iff_getElem.mp hmem
  have hlen : self.embeddings.length = (ingredients self).length :=
    encodeAll_ok_length self.embeddings_built
  have hgetD : (ingredients self).getD i nilStr = n := by
    rw [List.getD_eq_getElem _ _ hi, hgi]
  have hembi : self.embeddings.getD i [] = qe := by
    have henci : self.encode ((ingredients self).getD i nilStr) =
        Except.ok (self.embeddings.getD i []) :=
      encodeAll_ok_getD self.embeddings_built i hi
    rw [hgetD, henc] at henci
    exact (Except.ok.injEq _ _ ▸ henci).symm
  have hilen : i < self.embeddings.length := by omega
  have hslen : (self.embeddings.map fun v => self.cosSim qe v).length =
      self.embeddings.length := List.length_map _ _
  have hscore : ∀ j, j < self.embeddings.length →
      (self.embeddings.map fun v => self.cosSim qe v).getD j 0 =
        self.cosSim qe (self.embeddings.getD j []) := by
    intro j hj
    rw [List.getD_eq_getElem _ _ (by rw [hslen]; exact hj), List.getElem_map,
      List.getD_eq_getElem _ _ hj]
  have hsi : (self.embeddings.map fun v => self.cosSim qe v).getD i 0 = 1 := by
    rw [hscore i hilen, hembi, hself]
  have hmax : ∀ j, j < (self.embeddings.map fun v => self.cosSim qe v).length → j ≠ i →
      (self.embeddings.map fun v => self.cosSim qe v).getD j 0 <
        (self.embeddings.map fun v => self.cosSim qe v).getD i 0 := by
    intro j hj hne
    rw [hsi, hscore j (by omega)]
    apply hothers j (by omega)
    intro hcon
    apply hne
    have hjlen : j < (ingredients self).length := by omega
    have hjelem : (ingredients self)[j] = (ingredients self)[i] := by
      rw [← List.getD_eq_getElem _ nilStr hjlen, hcon, ← hgi]
    exact (List.Nodup.getElem_inj_iff self.keys_nodup).mp hjelem
  have hargmax : argmaxIdx (self.embeddings.map fun v => self.cosSim qe v) = some i :=
    argmaxIdx_first_max (by omega) hmax
  have hthr' : thr ≤ (self.embeddings.map fun v => self.cosSim qe v).getD i 0 := by
    rw [hsi]; exact hthr
  simp only [semantic_search, hlow, henc, hargmax, if_pos hthr', hgetD]

/-- C7 (amended): resolving the exact string of a nonempty canonical name `n`
(table keys are lowercase-normalized) with positive weight yields an entry
matching `n` under the lexical strategy unconditionally, and under the
semantic strategy provided the similarity kernel is non-degenerate for `n`:
it scores `n`'s own embedding 1 and every other ingredient's embedding
strictly below 1. -/
theorem c7_exact_name_resolves (self : IngredientNutritionSearch) (n : String)
    (r : NutritionRecord) (w : ℚ) (qe : List ℚ)
    (hne : n ≠ "") (hlow : strLower n = n)
    (hlook : List.lookup n self.data = some r) (hw : 0 < w)
    (henc : self.encode n = Except.ok qe)
    (hself : self.cosSim qe qe = 1)
    (hothers : ∀ j, j < (ingredients self).length →
      (ingredients self).getD j nilStr ≠ n →
      self.cosSim qe (self.embeddings.getD j []) < 1) :
    search self [(n, w)] ("fuzzy") = Except.ok [(n, some (scaledEntry n w r))] ∧
      search self [(n, w)] ("semantic") = Except.ok [(n, some (scaledEntry n w r))] := by
  have hmem : n ∈ ingredients self := mem_keys_of_lookup hlook
  have hfz := fuzzy_search_exact self n hmem hlow (0.6 : ℚ) (by norm_num)
  have hsm := semantic_search_exact self n qe hlow hmem henc hself hothers (0.6 : ℚ)
    (by norm_num)
  have he : entryResult self w (some n) = Except.ok (some (scaledEntry n w r)) := by
    simp [entryResult, hne, hlook]
  constructor
  · rw [search_fuzzy_loop]
    have hd : dispatchMatch self ("fuzzy") n (0.6 : ℚ) = Except.ok (some n) := by
      simp [dispatchMatch, hfz]
    simp [searchLoop, hw, hd, he, Except.map]
  · rw [search_semantic_loop]
    have hd : dispatchMatch self ("semantic") n (0.6 : ℚ) = Except.ok (some n) := by
      simp [dispatchMatch, hsm]
    simp [searchLoop, hw, hd, he, Except.map]

theorem c7_counterexample :
    search cEmptyB [("", 5)] ("fuzzy") = Except.ok [("", none)] := by
  with_unfolding_all decide

theorem c7_witness :
    search cMain [("apple", 100)] ("fuzzy") =
        Except.ok [(("apple" : String), some (scaledEntry ("apple") 100 ⟨52, 0.2, 0.3, 13.8⟩))] ∧
      search cMain [("apple", 100)] ("semantic") =
        Except.ok [(("apple" : String), some (scaledEntry ("apple") 100 ⟨52, 0.2, 0.3, 13.8⟩))] :=
  c7_exact_name_resolves cMain ("apple") ⟨52, 0.2, 0.3, 13.8⟩ 100 [1, 0]
    (by decide) (by decide) (by with_unfolding_all decide) (by norm_num)
    (by with_unfolding_all decide) (by with_unfolding_all decide)
    (by
      intro j hj hne
      have hj2 : j < 2 := by
        simpa [ingredients, cMain, appleBananaData] using hj
      interval_cases j
      · exact absurd (by with_unfolding_all decide) hne
      · with_unfolding_all decide)

/-- C1 (amended): for every nonempty canonical name `n` (lowercase, as table
keys are normalized) with base record `r` and weight `w > 0`, resolving
`{n: w}` under the lexical (default) strategy yields the entry matching `n`
with weight `w` whose four nutrition fields are `round(r.field * w / 100)`
rounded to the nearest integer. -/
theorem c1_resolve_scales_matched_name (self : IngredientNutritionSearch) (n : String)
    (r : NutritionRecord) (w : ℚ)
    (hne : n ≠ "") (hlow : strLower n = n)
    (hlook : List.lookup n self.data = some r) (hw : 0 < w) :
    search self [(n, w)] ("fuzzy") =
      Except.ok [(n, some ⟨n, w,
        pyRound (r.calories * (w / 100)), pyRound (r.fats * (w / 100)),
        pyRound (r.proteins * (w / 100)), pyRound (r.carbohydrates * (w / 100))⟩)] := by
  have hmem : n ∈ ingredients self := mem_keys_of_lookup hlook
  have hfz := fuzzy_search_exact self n hmem hlow (0.6 : ℚ) (by norm_num)
  have hd : dispatchMatch self ("fuzzy") n (0.6 : ℚ) = Except.ok (some n) := by
    simp [dispatchMatch, hfz]
  have he : entryResult self w (some n) = Except.ok (some (scaledEntry n w r)) := by
    simp [entryResult, hne, hlook]
  rw [search_fuzzy_loop]
  simp [searchLoop, hw, hd, he, scaledEntry, Except.map]

theorem c1_counterexample :
    search cEmptyA [("", 10)] ("fuzzy") = Except.ok [("", none)] := by
  with_unfolding_all decide

theorem c1_witness :
    search cMain [("banana", 200)] ("fuzzy") =
      Except.ok [(("banana" : String), some ⟨("banana"), 200,
        pyRound ((89 : ℚ) * (200 / 100)), pyRound ((0.3 : ℚ) * (200 / 100)),
        pyRound ((1.1 : ℚ) * (200 / 100)), pyRound ((22.8 : ℚ) * (200 / 100))⟩)] :=
  c1_resolve_scales_matched_name cMain ("banana") ⟨89, 0.3, 1.1, 22.8⟩ 200
    (by decide) (by decide) (by with_unfolding_all decide) (by norm_num)
